import Mathlib

/-!
Shallow embedding of the byte-pool library (src/lib.rs and src/poolable.rs).

Modelling conventions:
* `usize` values become `Nat`; `Layout::from_size_align` enforces the
  `isize::MAX` bound, which is where oversized requests fail.
* Fatal paths (failed `assert!`, `unwrap` on a layout error,
  `handle_alloc_error`) become `Option.none`.
* A raw memory region is represented by the list of its byte values; freshly
  allocated memory is uninitialized, so its contents are drawn from a
  parameter `uninit : Nat → Nat` and theorems quantify over it.
* The pool's mutex-guarded state (`Mutex<Vec<RawBlock>>`) becomes explicit
  state passing: operations take and return a `BytePool` value.
* The `std` container types backing `poolable.rs` (`Vec`, `HashMap`) are
  modelled by their documented semantics: an element list plus a capacity
  counter.
-/

/-- `isize::MAX` on a 64-bit target. -/
def isizeMax : Nat := 2 ^ 63 - 1

/-- `Layout::from_size_align(size, 1)`: for alignment 1 the layout size is
`size` itself, and construction errors iff `size` exceeds `isize::MAX`. -/
def from_size_align (size : Nat) : Option Nat :=
  if size ≤ isizeMax then some size else none

/-- `layout_for_size` (src/lib.rs): `size.checked_mul(size_of::<u8>())`
(the product `size * 1` cannot overflow) followed by
`Layout::from_size_align(alloc_size, align_of::<u8>()).unwrap()`; the
`unwrap` failure is `none`. -/
def layout_for_size (size : Nat) : Option Nat :=
  from_size_align (size * 1)

/-- `RawBlock` (src/lib.rs): a raw pointer plus its `Layout`. The memory
region is represented by its byte contents `data`; `size` is
`layout.size()`, the number of bytes exposed by `Deref`. -/
structure RawBlock where
  size : Nat
  data : List Nat
deriving Repr, DecidableEq

instance : Inhabited RawBlock := ⟨⟨0, []⟩⟩

/-- `RawBlock::alloc(size)` (src/lib.rs): computes the layout and requests
fresh, uninitialized memory from the allocator. -/
def RawBlock.alloc (size : Nat) (uninit : Nat → Nat) : Option RawBlock :=
  match layout_for_size size with
  | none => none
  | some l => some ⟨l, (List.range l).map uninit⟩

/-- `RawBlock::grow(new_size)` (src/lib.rs): `assert!(new_size > 0)`, builds
the new layout at the old alignment, then calls `realloc`, which preserves
the first `min(old_size, new_size)` bytes and leaves any remainder
uninitialized. -/
def RawBlock.grow (b : RawBlock) (new_size : Nat) (uninit : Nat → Nat) :
    Option RawBlock :=
  if new_size = 0 then none
  else
    match from_size_align new_size with
    | none => none
    | some l =>
        some ⟨l, b.data.take l ++ (List.range (l - b.data.length)).map uninit⟩

/-- `RawBlock::shrink(new_size)` (src/lib.rs): the source body is identical
to `grow` (both call `realloc` at the new layout). -/
def RawBlock.shrink (b : RawBlock) (new_size : Nat) (uninit : Nat → Nat) :
    Option RawBlock :=
  if new_size = 0 then none
  else
    match from_size_align new_size with
    | none => none
    | some l =>
        some ⟨l, b.data.take l ++ (List.range (l - b.data.length)).map uninit⟩

/-- `BytePool` (src/lib.rs): `list: Mutex<Vec<RawBlock>>`, the free list;
the mutex becomes explicit state passing. -/
structure BytePool where
  list : List RawBlock
deriving Repr, DecidableEq

/-- `Block` (src/lib.rs): owns one `RawBlock` (`ManuallyDrop` suppresses the
inner destructor); the `pool` back-reference is modelled by passing the pool
state explicitly to `Block.drop`. -/
structure Block where
  data : RawBlock
deriving Repr, DecidableEq

/-- The body of the `for i in start..end` scan inside `BytePool::alloc`,
as a counted loop: starting at index `i`, inspect `k` consecutive entries
and return the index of the first one whose `layout.size()` equals `size`. -/
def findMatchFrom (l : List RawBlock) (size : Nat) : Nat → Nat → Option Nat
  | _, 0 => none
  | i, k + 1 =>
    if (l.getD i default).size = size then some i
    else findMatchFrom l size (i + 1) k

/-- The `for i in start..end` scan inside `BytePool::alloc`: the index of
the first entry in `[i, stop)` whose `layout.size()` equals `size`, if any. -/
def findMatch (l : List RawBlock) (size i stop : Nat) : Option Nat :=
  findMatchFrom l size i (stop - i)

/-- `BytePool::alloc(size)` (src/lib.rs): `assert!(size > 0)`; scan the last
4 entries (`start = if end > 4 then end - 4 else 0`) for an exact layout-size
match, `Vec::remove` and return the first hit; otherwise allocate fresh. -/
def BytePool.alloc (p : BytePool) (size : Nat) (uninit : Nat → Nat) :
    Option (Block × BytePool) :=
  if size = 0 then none
  else
    match findMatch p.list size
        (if p.list.length > 4 then p.list.length - 4 else 0) p.list.length with
    | some i => some (⟨p.list.getD i default⟩, ⟨p.list.eraseIdx i⟩)
    | none =>
        match RawBlock.alloc size uninit with
        | none => none
        | some d => some (⟨d⟩, p)

/-- `BytePool::push_raw_block` (src/lib.rs): `Vec::push` onto the tail. -/
def BytePool.push_raw_block (p : BytePool) (b : RawBlock) : BytePool :=
  ⟨p.list ++ [b]⟩

/-- `Drop for Block` (src/lib.rs): moves the owned `RawBlock` out of the
`ManuallyDrop` wrapper and pushes it, contents untouched, onto the pool. -/
def Block.drop (b : Block) (p : BytePool) : BytePool :=
  p.push_raw_block b.data

/-- `Block::size` (src/lib.rs): `self.data.layout.size()`. -/
def Block.size (b : Block) : Nat :=
  b.data.size

/-- `Block::realloc(new_size)` (src/lib.rs): dispatch on
`new_size.cmp(&self.size())`: `Greater` grows, `Less` shrinks, `Equal` is a
no-op. -/
def Block.realloc (b : Block) (new_size : Nat) (uninit : Nat → Nat) :
    Option Block :=
  if b.size < new_size then (b.data.grow new_size uninit).map (fun d => ⟨d⟩)
  else if new_size < b.size then
    (b.data.shrink new_size uninit).map (fun d => ⟨d⟩)
  else some b

/-- Model of `std::vec::Vec<T>`: the element list plus the capacity of the
backing buffer (`len ≤ cap` for every value the operations produce). -/
structure Vec (α : Type) where
  data : List α
  cap : Nat
deriving Repr, DecidableEq

/-- `Vec::len`. -/
def Vec.len (v : Vec α) : Nat := v.data.length

/-- `Vec::capacity`. -/
def Vec.capacity (v : Vec α) : Nat := v.cap

/-- `Vec::truncate(n)`: drops every element past index `n`; capacity is
unchanged. -/
def Vec.truncate (v : Vec α) (n : Nat) : Vec α := ⟨v.data.take n, v.cap⟩

/-- `Vec::shrink_to_fit`: the capacity drops to the length. -/
def Vec.shrink_to_fit (v : Vec α) : Vec α := ⟨v.data, v.data.length⟩

/-- `Vec::reserve(additional)`: capacity becomes at least
`len + additional` and never decreases (modelled by the minimal guarantee). -/
def Vec.reserve (v : Vec α) (additional : Nat) : Vec α :=
  ⟨v.data, max v.cap (v.data.length + additional)⟩

/-- `Vec::resize(count, value)`: truncate or extend with copies of `value`
so that the new length is `count`. -/
def Vec.resize (v : Vec α) (count : Nat) (value : α) : Vec α :=
  if count ≤ v.data.length then v.truncate count
  else ⟨v.data ++ List.replicate (count - v.data.length) value, max v.cap count⟩

/-- `<Vec<T> as Poolable>::resize(count)` (src/poolable.rs):
`self.resize(count, T::default())`. -/
def Vec.poolableResize [Inhabited α] (v : Vec α) (count : Nat) : Vec α :=
  v.resize count default

/-- `<Vec<T> as Realloc>::realloc(new_size)` (src/poolable.rs):
`assert!(new_size > 0)`, then dispatch on `new_size.cmp(&self.capacity())`:
`Greater` reserves `new_size - capacity`, `Less` truncates to `new_size`
then calls `shrink_to_fit`, `Equal` is a no-op. -/
def Vec.realloc (v : Vec α) (new_size : Nat) : Option (Vec α) :=
  if new_size = 0 then none
  else if v.capacity < new_size then some (v.reserve (new_size - v.capacity))
  else if new_size < v.capacity then
    some ((v.truncate new_size).shrink_to_fit)
  else some v

/-- Model of `std::collections::HashMap`: the entry list plus the capacity
of the backing table. -/
structure HashMap (K V : Type) where
  entries : List (K × V)
  cap : Nat
deriving Repr, DecidableEq

/-- `HashMap::len`. -/
def HashMap.len (m : HashMap K V) : Nat := m.entries.length

/-- `HashMap::capacity`. -/
def HashMap.capacity (m : HashMap K V) : Nat := m.cap

/-- `HashMap::reserve(additional)`: capacity becomes at least
`len + additional` and never decreases. -/
def HashMap.reserve (m : HashMap K V) (additional : Nat) : HashMap K V :=
  ⟨m.entries, max m.cap (m.entries.length + additional)⟩

/-- `HashMap::shrink_to_fit`: the capacity drops to the length. -/
def HashMap.shrink_to_fit (m : HashMap K V) : HashMap K V :=
  ⟨m.entries, m.entries.length⟩

/-- `<HashMap as Poolable>::resize(count)` (src/poolable.rs): the body is
empty (`// do thing`); the map is returned unchanged. -/
def HashMap.resize (m : HashMap K V) (_count : Nat) : HashMap K V := m

/-- `<HashMap as Realloc>::realloc(new_size)` (src/poolable.rs):
`assert!(new_size > 0)`, then `Greater` reserves `new_size - capacity`,
`Less` calls `shrink_to_fit`, `Equal` is a no-op. -/
def HashMap.realloc (m : HashMap K V) (new_size : Nat) :
    Option (HashMap K V) :=
  if new_size = 0 then none
  else if m.capacity < new_size then some (m.reserve (new_size - m.capacity))
  else if new_size < m.capacity then some m.shrink_to_fit
  else some m

/-! ### Helper lemmas about the bounded scan -/

theorem findMatchFrom_eq_none (l : List RawBlock) (s : Nat) :
    ∀ k i, (∀ j, i ≤ j → j < i + k → (l.getD j default).size ≠ s) →
      findMatchFrom l s i k = none := by
  intro k
  induction k with
  | zero => intro i _; rfl
  | succ k ih =>
      intro i hnone
      unfold findMatchFrom
      rw [if_neg (hnone i (Nat.le_refl i) (by omega))]
      exact ih (i + 1) fun j hj1 hj2 => hnone j (by omega) (by omega)

theorem findMatchFrom_eq_some (l : List RawBlock) (s : Nat) :
    ∀ k i j, i ≤ j → j < i + k → (l.getD j default).size = s →
      (∀ m, i ≤ m → m < j → (l.getD m default).size ≠ s) →
      findMatchFrom l s i k = some j := by
  intro k
  induction k with
  | zero => intro i j h1 h2 _ _; omega
  | succ k ih =>
      intro i j hij hjk hmatch hmin
      unfold findMatchFrom
      rcases Nat.eq_or_lt_of_le hij with h | h
      · subst h; rw [if_pos hmatch]
      · rw [if_neg (hmin i (Nat.le_refl i) h)]
        exact ih (i + 1) j (by omega) (by omega) hmatch
          fun m h1 h2 => hmin m (by omega) h2

theorem findMatchFrom_some_spec (l : List RawBlock) (s : Nat) :
    ∀ k i j, findMatchFrom l s i k = some j →
      i ≤ j ∧ j < i + k ∧ (l.getD j default).size = s := by
  intro k
  induction k with
  | zero => intro i j heq; exact absurd heq (by simp [findMatchFrom])
  | succ k ih =>
      intro i j heq
      unfold findMatchFrom at heq
      by_cases hm : (l.getD i default).size = s
      · rw [if_pos hm] at heq
        obtain rfl : i = j := by simpa using heq
        exact ⟨Nat.le_refl i, by omega, hm⟩
      · rw [if_neg hm] at heq
        obtain ⟨h1, h2, h3⟩ := ih (i + 1) j heq
        exact ⟨by omega, by omega, h3⟩

theorem findMatch_eq_none (l : List RawBlock) (s i stop : Nat)
    (hnone : ∀ j, i ≤ j → j < stop → (l.getD j default).size ≠ s) :
    findMatch l s i stop = none :=
  findMatchFrom_eq_none l s (stop - i) i
    fun j hj1 hj2 => hnone j hj1 (by omega)

theorem findMatch_eq_some (l : List RawBlock) (s i stop j : Nat)
    (hij : i ≤ j) (hjstop : j < stop)
    (hmatch : (l.getD j default).size = s)
    (hmin : ∀ m, i ≤ m → m < j → (l.getD m default).size ≠ s) :
    findMatch l s i stop = some j :=
  findMatchFrom_eq_some l s (stop - i) i j hij (by omega) hmatch hmin

theorem findMatch_some_spec (l : List RawBlock) (s i stop j : Nat)
    (heq : findMatch l s i stop = some j) :
    i ≤ j ∧ j < stop ∧ (l.getD j default).size = s := by
  obtain ⟨h1, h2, h3⟩ := findMatchFrom_some_spec l s (stop - i) i j heq
  exact ⟨h1, by omega, h3⟩

theorem eraseIdx_concat (l : List α) (x : α) :
    (l ++ [x]).eraseIdx l.length = l := by
  induction l with
  | nil => rfl
  | cons a t ih => simpa [List.eraseIdx] using ih

theorem getD_concat (l : List RawBlock) (x : RawBlock) :
    (l ++ [x]).getD l.length default = x := by
  induction l with
  | nil => rfl
  | cons a t ih => simp [List.getD]

theorem getD_append_left (l l' : List RawBlock) (i : Nat)
    (h : i < l.length) : (l ++ l').getD i default = l.getD i default := by
  simp [List.getD, List.getElem?_append_left h]

theorem getD_mem (l : List RawBlock) (i : Nat) (h : i < l.length) :
    l.getD i default ∈ l := by
  simp only [List.getD, List.get?_eq_getElem?, List.getElem?_eq_getElem h,
    Option.getD_some]
  exact l.getElem_mem h

/-! ### Claim theorems -/

/-- C1: for every `size` with `0 < size ≤ isize::MAX`, `BytePool::alloc`
returns a `Block` whose `size()` is exactly `size`, whether the block is
reused from the free list (reuse requires an exact layout-size match) or
freshly allocated. -/
theorem alloc_capacity_exact (p : BytePool) (s : Nat) (uninit : Nat → Nat)
    (hpos : 0 < s) (hmax : s ≤ isizeMax) :
    ∃ b p', p.alloc s uninit = some (b, p') ∧ b.size = s := by
  have hne : ¬ s = 0 := by omega
  rcases hfm : findMatch p.list s
      (if p.list.length > 4 then p.list.length - 4 else 0) p.list.length with
    _ | i
  · have halloc : RawBlock.alloc s uninit
        = some ⟨s, (List.range s).map uninit⟩ := by
      unfold RawBlock.alloc layout_for_size from_size_align
      rw [Nat.mul_one, if_pos hmax]
    refine ⟨⟨⟨s, (List.range s).map uninit⟩⟩, p, ?_, rfl⟩
    unfold BytePool.alloc
    rw [if_neg hne, hfm, halloc]
  · obtain ⟨-, -, hsz⟩ :=
      findMatch_some_spec p.list s _ _ i hfm
    refine ⟨⟨p.list.getD i default⟩, ⟨p.list.eraseIdx i⟩, ?_, hsz⟩
    unfold BytePool.alloc
    rw [if_neg hne, hfm]

/-- C1 witness: a concrete run of `alloc` on the empty pool at size 3. -/
theorem alloc_capacity_exact_witness :
    ∃ b p', BytePool.alloc ⟨[]⟩ 3 (fun _ => 0) = some (b, p') ∧
      b.size = 3 :=
  alloc_capacity_exact ⟨[]⟩ 3 (fun _ => 0) (by decide) (by decide)

/-- C4: `BytePool::alloc(0)` hits `assert!(size > 0)` and never returns a
`Block`, whatever the pool state. -/
theorem alloc_zero_fails (p : BytePool) (uninit : Nat → Nat) :
    p.alloc 0 uninit = none := by
  unfold BytePool.alloc
  rw [if_pos rfl]

/-- C3: dropping a `Block` performs exactly one release: the free-list
length grows by exactly one; and the free list never shrinks except through
acquisition, which removes at most one entry (`alloc` keeps the length on a
fresh allocation and shrinks it by exactly one on reuse). -/
theorem drop_release_exactly_once (b : Block) (p : BytePool) :
    (Block.drop b p).list.length = p.list.length + 1 ∧
    (∀ s uninit b' p', p.alloc s uninit = some (b', p') →
      p'.list.length = p.list.length ∨
        p'.list.length + 1 = p.list.length) := by
  constructor
  · simp [Block.drop, BytePool.push_raw_block]
  · intro s uninit b' p' halloc
    unfold BytePool.alloc at halloc
    by_cases hs : s = 0
    · rw [if_pos hs] at halloc
      exact absurd halloc (by simp)
    · rw [if_neg hs] at halloc
      rcases hfm : findMatch p.list s
          (if p.list.length > 4 then p.list.length - 4 else 0)
          p.list.length with _ | i
      · rw [hfm] at halloc
        rcases hra : RawBlock.alloc s uninit with _ | d
        · rw [hra] at halloc
          exact absurd halloc (by simp)
        · rw [hra] at halloc
          simp only [Option.some.injEq, Prod.mk.injEq] at halloc
          obtain ⟨-, rfl⟩ := halloc
          exact Or.inl rfl
      · rw [hfm] at halloc
        obtain ⟨-, hlt, -⟩ :=
          findMatch_some_spec p.list s _ _ i hfm
        simp only [Option.some.injEq, Prod.mk.injEq] at halloc
        obtain ⟨-, rfl⟩ := halloc
        right
        show (p.list.eraseIdx i).length + 1 = p.list.length
        rw [List.length_eraseIdx, if_pos hlt]
        omega

/-- C3 witness: dropping a block onto a one-entry pool, and a reuse of that
entry shrinking the free list from one entry to none. -/
theorem drop_release_exactly_once_witness :
    (Block.drop ⟨⟨1, [9]⟩⟩ ⟨[⟨2, [5, 5]⟩]⟩).list.length
        = (⟨[⟨2, [5, 5]⟩]⟩ : BytePool).list.length + 1 ∧
    ((⟨[]⟩ : BytePool).list.length
        = (⟨[⟨2, [5, 5]⟩]⟩ : BytePool).list.length ∨
      (⟨[]⟩ : BytePool).list.length + 1
        = (⟨[⟨2, [5, 5]⟩]⟩ : BytePool).list.length) :=
  ⟨(drop_release_exactly_once ⟨⟨1, [9]⟩⟩ ⟨[⟨2, [5, 5]⟩]⟩).1,
   (drop_release_exactly_once ⟨⟨1, [9]⟩⟩ ⟨[⟨2, [5, 5]⟩]⟩).2 2 (fun _ => 0)
     ⟨⟨2, [5, 5]⟩⟩ ⟨[]⟩ (by decide)⟩

/-- C2: acquisition scans exactly the window of the most recent 4 free-list
entries (`start = if len > 4 then len - 4 else 0`, up to the tail) for an
exact capacity match: the first match of the scan is removed and returned;
when no entry of the window matches, a fresh block is allocated and the
free list is left untouched; release (`push_raw_block`) always appends at
the tail. -/
theorem alloc_bounded_scan (p : BytePool) (s : Nat) (uninit : Nat → Nat)
    (hpos : 0 < s) :
    (∀ b : RawBlock, (p.push_raw_block b).list = p.list ++ [b]) ∧
    ((∀ j, (if p.list.length > 4 then p.list.length - 4 else 0) ≤ j →
        j < p.list.length → (p.list.getD j default).size ≠ s) →
      p.alloc s uninit = (RawBlock.alloc s uninit).map fun d => (⟨d⟩, p)) ∧
    (∀ j, (if p.list.length > 4 then p.list.length - 4 else 0) ≤ j →
      j < p.list.length → (p.list.getD j default).size = s →
      (∀ m, (if p.list.length > 4 then p.list.length - 4 else 0) ≤ m →
        m < j → (p.list.getD m default).size ≠ s) →
      p.alloc s uninit
        = some (⟨p.list.getD j default⟩, ⟨p.list.eraseIdx j⟩)) := by
  have hne : ¬ s = 0 := by omega
  refine ⟨fun b => rfl, ?_, ?_⟩
  · intro hnone
    have hfm := findMatch_eq_none p.list s _ p.list.length hnone
    unfold BytePool.alloc
    rw [if_neg hne, hfm]
    cases RawBlock.alloc s uninit <;> rfl
  · intro j hstart hstop hmatch hmin
    have hfm := findMatch_eq_some p.list s _ p.list.length j
      hstart hstop hmatch hmin
    unfold BytePool.alloc
    rw [if_neg hne, hfm]

/-- C2 witness: a one-entry pool; requesting size 3 misses the window and
allocates fresh, requesting size 5 hits and removes the entry, and a push
lands at the tail. -/
theorem alloc_bounded_scan_witness :
    (BytePool.push_raw_block ⟨[⟨5, [1, 1, 1, 1, 1]⟩]⟩ ⟨2, [9, 9]⟩).list
      = [⟨5, [1, 1, 1, 1, 1]⟩] ++ [⟨2, [9, 9]⟩] ∧
    BytePool.alloc ⟨[⟨5, [1, 1, 1, 1, 1]⟩]⟩ 3 (fun _ => 7)
      = (RawBlock.alloc 3 (fun _ => 7)).map
          (fun d => (⟨d⟩, ⟨[⟨5, [1, 1, 1, 1, 1]⟩]⟩)) ∧
    BytePool.alloc ⟨[⟨5, [1, 1, 1, 1, 1]⟩]⟩ 5 (fun _ => 7)
      = some (⟨⟨5, [1, 1, 1, 1, 1]⟩⟩, ⟨[]⟩) := by
  refine ⟨(alloc_bounded_scan ⟨[⟨5, [1, 1, 1, 1, 1]⟩]⟩ 3 (fun _ => 7)
      (by decide)).1 ⟨2, [9, 9]⟩, ?_, ?_⟩
  · exact (alloc_bounded_scan ⟨[⟨5, [1, 1, 1, 1, 1]⟩]⟩ 3 (fun _ => 7)
      (by decide)).2.1
      (fun j _ hj => by
        have hj1 : j < 1 := hj
        obtain rfl : j = 0 := by omega
        decide)
  · exact (alloc_bounded_scan ⟨[⟨5, [1, 1, 1, 1, 1]⟩]⟩ 5 (fun _ => 7)
      (by decide)).2.2 0 (by decide) (by decide) (by decide)
      (fun m _ hm => absurd hm (Nat.not_lt_zero m))

/-- C5: growing a block (`realloc(new_size)` with `new_size` greater than
the block's size `L`) preserves the bytes at positions `[0, L)`: the old
contents remain a prefix of the grown buffer. -/
theorem realloc_grow_preserves (b : Block) (new_size : Nat)
    (uninit : Nat → Nat) (hwf : b.data.data.length = b.size)
    (hgt : b.size < new_size) (hmax : new_size ≤ isizeMax) :
    ∃ b', b.realloc new_size uninit = some b' ∧ b'.size = new_size ∧
      b'.data.data.take b.size = b.data.data := by
  refine ⟨⟨⟨new_size, b.data.data.take new_size
      ++ (List.range (new_size - b.data.data.length)).map uninit⟩⟩,
    ?_, rfl, ?_⟩
  · unfold Block.realloc
    rw [if_pos hgt]
    unfold RawBlock.grow from_size_align
    rw [if_neg (show ¬ new_size = 0 by omega), if_pos hmax]
    rfl
  · have htake : b.data.data.take new_size = b.data.data :=
      List.take_of_length_le (by omega)
    show (b.data.data.take new_size ++ _).take b.size = b.data.data
    rw [htake, ← hwf, List.take_left]

/-- C5 witness: the two-byte block `[7, 8]` grown to size 5 keeps `[7, 8]`
as its prefix. -/
theorem realloc_grow_preserves_witness :
    ∃ b', Block.realloc ⟨⟨2, [7, 8]⟩⟩ 5 (fun _ => 0) = some b' ∧
      b'.size = 5 ∧ b'.data.data.take 2 = [7, 8] :=
  realloc_grow_preserves ⟨⟨2, [7, 8]⟩⟩ 5 (fun _ => 0) (by decide) (by decide)
    (by decide)

/-- C6: shrinking a block (`realloc(new_size)` with `0 < new_size < L`)
preserves the bytes at positions `[0, new_size)` and afterwards `size()`
reports exactly `new_size`. -/
theorem realloc_shrink_preserves (b : Block) (new_size : Nat)
    (uninit : Nat → Nat) (hwf : b.data.data.length = b.size)
    (hpos : 0 < new_size) (hlt : new_size < b.size)
    (hmax : b.size ≤ isizeMax) :
    ∃ b', b.realloc new_size uninit = some b' ∧ b'.size = new_size ∧
      b'.data.data = b.data.data.take new_size := by
  have hpad : new_size - b.data.data.length = 0 := by omega
  refine ⟨⟨⟨new_size, b.data.data.take new_size
      ++ (List.range (new_size - b.data.data.length)).map uninit⟩⟩,
    ?_, rfl, ?_⟩
  · unfold Block.realloc
    rw [if_neg (show ¬ b.size < new_size by omega), if_pos hlt]
    unfold RawBlock.shrink from_size_align
    rw [if_neg (show ¬ new_size = 0 by omega),
      if_pos (show new_size ≤ isizeMax by omega)]
    rfl
  · show b.data.data.take new_size ++ _ = b.data.data.take new_size
    rw [hpad]
    simp

/-- C6 witness: the three-byte block `[4, 5, 6]` shrunk to size 2 becomes
`[4, 5]` and reports size 2. -/
theorem realloc_shrink_preserves_witness :
    ∃ b', Block.realloc ⟨⟨3, [4, 5, 6]⟩⟩ 2 (fun _ => 0) = some b' ∧
      b'.size = 2 ∧ b'.data.data = [4, 5, 6].take 2 :=
  realloc_shrink_preserves ⟨⟨3, [4, 5, 6]⟩⟩ 2 (fun _ => 0) (by decide)
    (by decide) (by decide) (by decide)

/-- C7 counterexample: a `Vec` of length 1 and capacity 10; `realloc 5`
(with `0 < 5 < capacity`) leaves capacity 1, not 5, because `truncate`
cannot lengthen the vector and `shrink_to_fit` drops capacity to the
length. -/
theorem vec_realloc_shrink_cap_counterexample :
    0 < 5 ∧ 5 < Vec.capacity (⟨[0], 10⟩ : Vec Nat) ∧
    (Vec.realloc (⟨[0], 10⟩ : Vec Nat) 5).map Vec.capacity ≠ some 5 := by
  decide

/-- C7 (amended): for `Vec`, `realloc(new_size)` with
`0 < new_size < capacity` truncates the vector to `new_size` and eagerly
releases the freed tail storage via `shrink_to_fit`; the resulting capacity
equals `min new_size len` — which is `new_size` exactly when the length was
at least `new_size`. -/
theorem vec_realloc_shrink_eager (v : Vec α) (new_size : Nat)
    (hpos : 0 < new_size) (hlt : new_size < v.capacity) :
    v.realloc new_size = some ⟨v.data.take new_size, min new_size v.len⟩ ∧
    (v.realloc new_size).map Vec.capacity = some (min new_size v.len) := by
  have h1 : v.realloc new_size
      = some ⟨v.data.take new_size, min new_size v.data.length⟩ := by
    unfold Vec.realloc
    rw [if_neg (show ¬ new_size = 0 by omega),
      if_neg (show ¬ v.capacity < new_size by omega), if_pos hlt]
    unfold Vec.truncate Vec.shrink_to_fit
    simp [List.length_take]
  exact ⟨h1, by rw [h1]; rfl⟩

/-- C7 witness: a `Vec` of length 3 and capacity 9, shrunk to 2. -/
theorem vec_realloc_shrink_eager_witness :
    Vec.realloc (⟨[3, 3, 3], 9⟩ : Vec Nat) 2 = some ⟨[3, 3], 2⟩ ∧
    (Vec.realloc (⟨[3, 3, 3], 9⟩ : Vec Nat) 2).map Vec.capacity
      = some 2 :=
  vec_realloc_shrink_eager (⟨[3, 3, 3], 9⟩ : Vec Nat) 2 (by decide)
    (by decide)

/-- C8 counterexample: `HashMap`'s `Poolable::resize` is a no-op
(`// do thing`), so resizing an empty map to 3 leaves the length 0, not 3. -/
theorem hashmap_resize_noop_counterexample :
    (HashMap.resize (⟨[], 0⟩ : HashMap Nat Nat) 3).len ≠ 3 := by
  decide

/-- C8 (amended): `Vec`'s `Poolable::resize(count)` sets the length to
`count`, default-filling new elements when growing; `HashMap`'s
`Poolable::resize` is a no-op and leaves the length unchanged. -/
theorem poolable_resize_len [Inhabited α] (v : Vec α) (count : Nat)
    (m : HashMap K V) :
    (v.poolableResize count).len = count ∧ (m.resize count).len = m.len := by
  constructor
  · unfold Vec.poolableResize Vec.resize Vec.truncate Vec.len
    by_cases h : count ≤ v.data.length
    · rw [if_pos h]
      simp only [List.length_take]
      omega
    · rw [if_neg h]
      simp only [List.length_append, List.length_replicate]
      omega
  · rfl

/-- C9: every realloc path fails fatally on `new_size == 0`:
`Block::realloc` for any block of positive size (every block the pool hands
out has one), and the `Vec` and `HashMap` `Realloc` impls, whose
`assert!(new_size > 0)` comes first. -/
theorem realloc_zero_fatal :
    (∀ (b : Block) (uninit : Nat → Nat), 0 < b.size →
      b.realloc 0 uninit = none) ∧
    (∀ v : Vec α, v.realloc 0 = none) ∧
    (∀ m : HashMap K V, m.realloc 0 = none) := by
  refine ⟨?_, ?_, ?_⟩
  · intro b uninit hb
    unfold Block.realloc
    rw [if_neg (show ¬ b.size < 0 by omega), if_pos hb]
    unfold RawBlock.shrink
    rw [if_pos rfl]
    rfl
  · intro v
    unfold Vec.realloc
    rw [if_pos rfl]
  · intro m
    unfold HashMap.realloc
    rw [if_pos rfl]

/-- C9 witness: a one-byte block, a `Vec` and a `HashMap`, each given a
zero-size realloc request. -/
theorem realloc_zero_fatal_witness :
    0 < Block.size ⟨⟨1, [4]⟩⟩ ∧
    Block.realloc ⟨⟨1, [4]⟩⟩ 0 (fun _ => 0) = none ∧
    Vec.realloc (⟨[], 1⟩ : Vec Nat) 0 = none ∧
    HashMap.realloc (⟨[], 1⟩ : HashMap Nat Nat) 0 = none :=
  ⟨by decide,
   (@realloc_zero_fatal Nat Nat Nat).1 ⟨⟨1, [4]⟩⟩ (fun _ => 0) (by decide),
   (@realloc_zero_fatal Nat Nat Nat).2.1 ⟨[], 1⟩,
   (@realloc_zero_fatal Nat Nat Nat).2.2 ⟨[], 1⟩⟩

/-- C10: the pool neither resets nor zeroes a buffer on release or reuse:
dropping a block and then requesting its exact size again (when no other
free-list entry has that size) hands back a block holding exactly the bytes
the previous owner left, and restores the pool to its previous state. -/
theorem reuse_preserves_contents (p : BytePool) (b : Block)
    (uninit : Nat → Nat) (hpos : 0 < b.data.size)
    (hfresh : ∀ rb ∈ p.list, rb.size ≠ b.data.size) :
    (Block.drop b p).alloc b.data.size uninit = some (⟨b.data⟩, p) := by
  have hne : ¬ b.data.size = 0 := by omega
  have hlen : (p.list ++ [b.data]).length = p.list.length + 1 := by
    simp only [List.length_append, List.length_cons, List.length_nil]
  have hfm : findMatch (p.list ++ [b.data]) b.data.size
      (if (p.list ++ [b.data]).length > 4
        then (p.list ++ [b.data]).length - 4 else 0)
      (p.list ++ [b.data]).length = some p.list.length := by
    apply findMatch_eq_some
    · rw [hlen]; split <;> omega
    · omega
    · rw [getD_concat]
    · intro m _ hm2
      rw [getD_append_left p.list [b.data] m hm2]
      exact hfresh _ (getD_mem p.list m hm2)
  unfold Block.drop BytePool.push_raw_block BytePool.alloc
  rw [if_neg hne]
  dsimp only
  rw [hfm]
  dsimp only
  rw [getD_concat, eraseIdx_concat]

/-- C10 witness: drop a one-byte block holding `[9]` onto a pool whose only
entry has a different size, then allocate size 1 again. -/
theorem reuse_preserves_contents_witness :
    BytePool.alloc (Block.drop ⟨⟨1, [9]⟩⟩ ⟨[⟨2, [0, 0]⟩]⟩) 1 (fun _ => 0)
      = some (⟨⟨1, [9]⟩⟩, ⟨[⟨2, [0, 0]⟩]⟩) :=
  reuse_preserves_contents ⟨[⟨2, [0, 0]⟩]⟩ ⟨⟨1, [9]⟩⟩ (fun _ => 0)
    (by decide) (by decide)
